import Mathlib

/-!
Verification of the streaming-filter core of `emokitten.py`.

The source operates on numpy 1-D arrays of floats (samples) and 2-D arrays
(the filter delay buffer).  Exact arithmetic claims about the recursion
structure are embedded over `ℚ`; the ratio stage, whose specified behaviour
involves IEEE division by zero, is embedded over an extended-value type
`EFloat` (rationals plus signed infinities and a not-a-number value).
Fallible numpy operations (broadcasting failures, dimension mismatches in
`dot`, shape errors in row assignment) are embedded as `Option`.
-/

namespace Emokitten

/-- A sample: one numpy 1-D array of per-channel values, modelled over `ℚ`. -/
abbrev Sample := List ℚ

/-- The filter delay buffer `v` of `iir_filter`: a numpy 2-D array of shape
`(len b, width)`, modelled as a list of rows. -/
abbrev FilterState := List Sample

/-- Entry `j` of the numpy product `c.dot(M)` of a 1-D `c` against the rows of
a 2-D `M`, namely `Σ_i c[i] * M[i][j]`. -/
def dotCol : List ℚ → FilterState → ℕ → ℚ
  | c :: cs, r :: rs, j => c * r.getD j 0 + dotCol cs rs j
  | _, _, _ => 0

/-- numpy `c.dot(M)` for a 1-D `c` and a 2-D `M` whose rows have width `w`:
the width-`w` vector of column sums `Σ_i c[i] * M[i][j]`. -/
def vecMatDot (c : List ℚ) (M : FilterState) (w : ℕ) : Sample :=
  (List.range w).map (dotCol c M)

/-- numpy elementwise subtraction `x - y` of two 1-D arrays, with numpy's
broadcasting rule for 1-D shapes: equal lengths subtract elementwise, a
length-1 operand is broadcast against the other, and any other combination
is a broadcasting error (`none`). -/
def npSub (x y : Sample) : Option Sample :=
  if x.length = y.length then some (List.zipWith (fun s t => s - t) x y)
  else if x.length = 1 then some (y.map (fun t => x.headD 0 - t))
  else if y.length = 1 then some (x.map (fun s => s - y.headD 0))
  else none

/-- numpy assignment `v[0] = r` into a row of width `w`: the value is
broadcast to shape `(w,)`, which succeeds exactly when `r` has length `w`
or length 1; any other length is a shape error (`none`). -/
def setRow (r : Sample) (w : ℕ) : Option Sample :=
  if r.length = w then some r
  else if r.length = 1 then some (List.replicate w (r.headD 0))
  else none

/-- The shift `v[1:, :] = v[:-1, :]` of `iir_filter` (line 155).  numpy copies
the right-hand side before an overlapping slice assignment, so row 0 is
unchanged and every later row receives the pre-assignment value of the row
above it. -/
def npShift : FilterState → FilterState
  | [] => []
  | r :: v => r :: (r :: v).dropLast

/-- One iteration of the `while` loop of `iir_filter` (lines 150-157), for
fixed coefficients `b`, `a`, current delay buffer `v` and input sample `x`:

* `v[0] = x - a[1:].dot(v[1:, :])` — the `dot` requires `a[1:]` to have as
  many entries as `v[1:]` has rows, the subtraction broadcasts, and the row
  assignment requires the result to broadcast to the buffer width;
* `y = b.dot(v)` — requires `b` to have as many entries as `v` has rows;
* `v[1:, :] = v[:-1, :]`;
* the output is `y`.

Every failing numpy operation (including indexing `v[0]` of an empty
buffer) yields `none`. -/
def iirStep (b a : List ℚ) (v : FilterState) (x : Sample) : Option (Sample × FilterState) :=
  match v with
  | [] => none
  | r0 :: vt =>
    if a.tail.length = vt.length then
      match npSub x (vecMatDot a.tail vt r0.length) with
      | none => none
      | some s =>
        match setRow s r0.length with
        | none => none
        | some v0 =>
          if b.length = vt.length + 1 then
            some (vecMatDot b (v0 :: vt) r0.length, npShift (v0 :: vt))
          else none
    else none

/-- The `while` loop of `iir_filter` run over a finite input stream: one
output per successfully processed input; a failing step ends the stream with
the error flag `false` (the generator raises on that pull), a fully consumed
input stream ends it with `true` (clean end of stream). -/
def iirRun (b a : List ℚ) (v : FilterState) : List Sample → List Sample × Bool
  | [] => ([], true)
  | x :: xs =>
    match iirStep b a v x with
    | none => ([], false)
    | some (y, v2) =>
      let p := iirRun b a v2 xs
      (y :: p.1, p.2)

/-- The delay buffer created by `iir_filter` (line 149):
`v = np.zeros((len(b), len(xin)))` for the first pulled sample `xin`. -/
def initState (b : List ℚ) (x0 : Sample) : FilterState :=
  List.replicate b.length (List.replicate x0.length 0)

/-- `iir_filter` (lines 120-157) over a finite input stream, parametrised
directly by the coefficient lists `b`, `a` (in the source they are produced
once, before the first pull, by the external `scipy.signal.iirfilter` call
inside `iir_filter_coefs`).  The first pulled sample fixes the buffer width;
an empty input stream ends cleanly before any buffer is created.  The
boolean is `true` for a clean end of stream and `false` when a pull raised. -/
def iir_filter (b a : List ℚ) : List Sample → List Sample × Bool
  | [] => ([], true)
  | x0 :: xs => iirRun b a (initState b x0) (x0 :: xs)

/-- `abser` (lines 160-176): elementwise absolute value, one output sample
per input sample. -/
def abser (xs : List Sample) : List Sample :=
  xs.map (fun s => s.map (fun t => |t|))

/-- An IEEE-754 floating-point value over exact numbers: a finite value, a
signed infinity, or a not-a-number value.  Signed zero is not distinguished. -/
inductive EFloat
  | fin (q : ℚ)
  | posInf
  | negInf
  | nan
deriving DecidableEq, Repr

/-- IEEE-754 division on `EFloat`: a finite value divided by zero gives a
signed infinity (or nan for 0/0) instead of raising; an infinity divided by
a finite value keeps its (sign-adjusted) infinity; infinity/infinity and
every operation touching nan give nan. -/
def EFloat.div : EFloat → EFloat → EFloat
  | EFloat.fin x, EFloat.fin y =>
    if y = 0 then
      if 0 < x then EFloat.posInf
      else if x < 0 then EFloat.negInf
      else EFloat.nan
    else EFloat.fin (x / y)
  | EFloat.fin _, EFloat.posInf => EFloat.fin 0
  | EFloat.fin _, EFloat.negInf => EFloat.fin 0
  | EFloat.posInf, EFloat.fin y => if y < 0 then EFloat.negInf else EFloat.posInf
  | EFloat.negInf, EFloat.fin y => if y < 0 then EFloat.posInf else EFloat.negInf
  | _, _ => EFloat.nan

instance : Div EFloat := ⟨EFloat.div⟩

lemma EFloat.div_eq (x y : EFloat) : x / y = EFloat.div x y := rfl

/-- numpy elementwise division `x / y` of two 1-D arrays, with numpy's
broadcasting rule for 1-D shapes: equal lengths divide elementwise, a
length-1 operand is broadcast against the other, and any other combination
raises a broadcasting `ValueError` (`none`).  Division by a zero element
never raises — it follows the value semantics of the `Div` instance. -/
def npDiv {α : Type} [Div α] (x y : List α) : Option (List α) :=
  if x.length = y.length then some (List.zipWith (fun u v => u / v) x y)
  else
    match x, y with
    | [u], _ => some (y.map (fun v => u / v))
    | _, [v] => some (x.map (fun u => u / v))
    | _, _ => none

/-- `ratioer` (lines 179-198): per pull, one sample from each input stream
(the numerator first), then their numpy elementwise division.  The stream
ends cleanly (`true`) as soon as either input ends; a broadcasting failure
of a pull's division raises on that pull, ending the stream with `false`
after the outputs already emitted. -/
def ratioer {α : Type} [Div α] : List (List α) → List (List α) → List (List α) × Bool
  | s :: xs, t :: ys =>
    match npDiv s t with
    | none => ([], false)
    | some q =>
      let p := ratioer xs ys
      (q :: p.1, p.2)
  | _, _ => ([], true)

/-- Errors of coefficient design: a normalized cutoff out of range, or a
numerically ill-conditioned design (the `BadCoefficients` warning that
lines 111-117 turn into an error and re-raise). -/
inductive CoefError
  | invalidCutoff
  | illConditionedFilter
deriving DecidableEq, Repr

/-- Modelled from the spec: `iir_filter_coefs` (lines 88-117) delegates the
numeric design to the external library call `scipy.signal.iirfilter(order,
cutoff/nyq, btype)`, which is not part of this repository's source.  Spec
§4.1 specifies the behaviour: each cutoff is normalized by the Nyquist
frequency and the design fails with `InvalidCutoff` unless every normalized
cutoff lies strictly inside (0,1); an in-range design can still be
numerically ill-conditioned, in which case the `warnings.filterwarnings`
plus `except BadCoefficients: raise` of lines 111-117 fail with
`IllConditionedFilter` instead of returning degraded coefficients.  Whether
a given in-range design is ill-conditioned is decided by scipy's numerics,
abstracted here as the parameter `illCond`; the returned coefficient values
are abstracted to `Unit`. -/
def iir_filter_coefs (illCond : Bool) (cutoff : List ℚ) (nyq : ℚ) : Except CoefError Unit :=
  if cutoff.all (fun f => decide (0 < f / nyq) && decide (f / nyq < 1)) then
    if illCond then Except.error CoefError.illConditionedFilter else Except.ok ()
  else
    Except.error CoefError.invalidCutoff

/-- Python `int(q)`: truncation toward zero. -/
def pyInt (q : ℚ) : ℤ :=
  if 0 ≤ q then ⌊q⌋ else ⌈q⌉

/-- The intensity computed by `alpha_stars` (line 234) from a post-lowpass
output value `y`: `int(max(0, min(127, 10*y - 60)))`. -/
def alphaValue (y : ℚ) : ℤ :=
  pyInt (max 0 (min 127 (10 * y - 60)))

/-- Modelled from the spec: the intensity formula the spec claims for
`alpha_stars`, `clip(round(10*y - 60), 0, 127)`, to be compared with
`alphaValue`. -/
def specIntensity (y : ℚ) : ℤ :=
  max 0 (min 127 (round (10 * y - 60)))

/-- The shift of §4.2 step 3 of the spec, transcribed positionally: for `i`
from `k - 1` down to 1 the row `v[i]` receives the pre-shift value `v[i-1]`
(no cascading, because the downward iteration writes each row before it is
read), and row 0 keeps its value. -/
def specShift (v : FilterState) : FilterState :=
  (List.range v.length).map (fun i => if i = 0 then v.getD 0 [] else v.getD (i - 1) [])

/-- The per-sample algorithm of §4.2 of the spec, over a stream of common
width `w`, transcribed equation by equation:
`v[0] = x - Σ_{i=1..k-1} a[i]·v[i]`, then `y = Σ_{i=0..k-1} b[i]·v[i]`
computed before shifting, then the downward shift; emit `y`. -/
def specStep (b a : List ℚ) (w : ℕ) (v : FilterState) (x : Sample) : Sample × FilterState :=
  let v0 := List.zipWith (fun s t => s - t) x (vecMatDot a.tail v.tail w)
  let v1 := v0 :: v.tail
  (vecMatDot b v1 w, specShift v1)

/-- The spec recursion of §4.2 iterated over a finite stream of common
width `w`. -/
def iirSpecRun (b a : List ℚ) (w : ℕ) (v : FilterState) : List Sample → List Sample
  | [] => []
  | x :: xs =>
    let p := specStep b a w v x
    p.1 :: iirSpecRun b a w p.2 xs

/-- The spec filter of §4.2: the recursion started from the all-zero state
matrix of `len b` rows and width `w`. -/
def iirSpec (b a : List ℚ) (w : ℕ) (xs : List Sample) : List Sample :=
  iirSpecRun b a w (List.replicate b.length (List.replicate w 0)) xs

/-- How the body of the second `try` of `alpha_stars` (lines 220-237) exits:
normally (upstream end of stream), by `KeyboardInterrupt`, or by some other
exception. -/
inductive BodyExit
  | finished
  | keyboardInterrupt
  | otherError
deriving DecidableEq, Repr

/-- Number of `headset.close()` calls performed by a Python
`try: ... except KeyboardInterrupt: H finally: F` statement whose handler
`H` makes `hc` close calls and whose finalizer `F` makes `fc` close calls:
the `except KeyboardInterrupt` clause runs only for that exception, and the
`finally` clause runs on every exit. -/
def tryCloseCalls (hc fc : ℕ) : BodyExit → ℕ
  | BodyExit.keyboardInterrupt => hc + fc
  | BodyExit.finished => fc
  | BodyExit.otherError => fc

/-- `alpha_stars` lines 238-241: the `except KeyboardInterrupt` handler body
is `headset.close()` (one call) and the `finally` body is `headset.close()`
(one call). -/
def alphaStarsCloseCalls : BodyExit → ℕ :=
  tryCloseCalls 1 1

/-- Control points of `alpha_stars` (lines 214-241) relevant to a failed
device open. -/
inductive Phase
  | openDevice
  | logFatalOpen
  | spawnSetup
  | buildPipeline
  | filterLoop
deriving DecidableEq, Repr

/-- What the caller of `alpha_stars` observes when it returns or raises. -/
inductive Outcome
  | ran
  | openFailureReported
  | unboundLocalError
deriving DecidableEq, Repr

/-- Embedding of the open sequence of `alpha_stars` (lines 214-222):
`headset = emotiv.Emotiv(...)` sits under a bare `except:` whose body only
logs (lines 215-218), after which control falls through into the second
`try`.  When the open raised, `headset` was never bound, so the first
statement reading it — `gevent.spawn(headset.setup)` (line 222) — raises
`UnboundLocalError`; the pipeline construction (line 225) and the filtering
loop (line 232) are never reached on that path. -/
def alphaStarsPhases (openFails : Bool) : List Phase :=
  if openFails then
    [Phase.openDevice, Phase.logFatalOpen, Phase.spawnSetup]
  else
    [Phase.openDevice, Phase.spawnSetup, Phase.buildPipeline, Phase.filterLoop]

/-- The exception (if any) escaping `alpha_stars` to its caller, as a
function of whether the device open raised: on a failed open the caller
receives the `UnboundLocalError` from line 222 (re-raised from the `finally`
at line 241), not a report of the open failure itself, which was swallowed
at line 217. -/
def alphaStarsOutcome (openFails : Bool) : Outcome :=
  if openFails then Outcome.unboundLocalError else Outcome.ran

/-! ### Helper lemmas -/

lemma length_vecMatDot (c : List ℚ) (M : FilterState) (w : ℕ) :
    (vecMatDot c M w).length = w := by
  simp [vecMatDot]

lemma range_map_getD {α : Type} (d : α) :
    ∀ (l : List α) (n : ℕ), n ≤ l.length →
      (List.range n).map (fun i => l.getD i d) = l.take n := by
  intro l
  induction l with
  | nil =>
    intro n hn
    simp at hn
    subst hn
    simp
  | cons h t ih =>
    intro n hn
    cases n with
    | zero => simp
    | succ m =>
      rw [List.range_succ_eq_map, List.map_cons, List.map_map]
      have hcomp : ((fun i => (h :: t).getD i d) ∘ Nat.succ) = fun i => t.getD i d := by
        funext i
        simp
      rw [hcomp, ih m (by simpa using hn)]
      simp

lemma specShift_eq_npShift (v : FilterState) : specShift v = npShift v := by
  cases v with
  | nil => simp [specShift, npShift]
  | cons r t =>
    show specShift (r :: t) = r :: (r :: t).dropLast
    unfold specShift
    rw [List.length_cons, List.range_succ_eq_map, List.map_cons, List.map_map]
    have hcomp : ((fun i => if i = 0 then (r :: t).getD 0 [] else (r :: t).getD (i - 1) [])
        ∘ Nat.succ) = fun i => (r :: t).getD i [] := by
      funext i
      simp
    rw [hcomp, range_map_getD ([] : Sample) (r :: t) t.length (by simp),
      List.dropLast_eq_take]
    simp

lemma mem_npShift (v : FilterState) (r : Sample) (hr : r ∈ npShift v) : r ∈ v := by
  cases v with
  | nil => simp [npShift] at hr
  | cons h t =>
    simp only [npShift, List.mem_cons] at hr
    rcases hr with hr | hr
    · simp [hr]
    · exact (List.dropLast_sublist (h :: t)).mem hr

lemma length_npShift (v : FilterState) : (npShift v).length = v.length := by
  cases v with
  | nil => rfl
  | cons h t => simp [npShift]

/-- When the input sample has the width of the delay buffer and the
coefficient lists are as `iir_filter` builds them, one loop iteration of the
source is exactly one step of the spec recursion of §4.2. -/
lemma iirStep_eq_specStep (b a : List ℚ) (w : ℕ) (v : FilterState) (x : Sample)
    (ha : a.length = b.length) (hb : 1 ≤ b.length) (hv : v.length = b.length)
    (hrows : ∀ r ∈ v, r.length = w) (hx : x.length = w) :
    iirStep b a v x = some (specStep b a w v x) := by
  cases v with
  | nil =>
    exfalso
    simp at hv
    omega
  | cons r0 vt =>
    have hr0 : r0.length = w := hrows r0 (by simp)
    have hvt : vt.length = b.length - 1 := by
      simpa using congrArg (fun n => n - 1) hv
    have hguard : a.tail.length = vt.length := by
      simp [List.length_tail, hvt, ha]
    have hfb : (vecMatDot a.tail vt r0.length).length = x.length := by
      rw [length_vecMatDot, hr0, hx]
    have hsub : npSub x (vecMatDot a.tail vt r0.length)
        = some (List.zipWith (fun s t => s - t) x (vecMatDot a.tail vt r0.length)) := by
      unfold npSub
      rw [if_pos hfb.symm]
    have hslen : (List.zipWith (fun s t => s - t) x
        (vecMatDot a.tail vt r0.length)).length = r0.length := by
      rw [List.length_zipWith, length_vecMatDot, hr0, hx]
      simp
    have hset : setRow (List.zipWith (fun s t => s - t) x
        (vecMatDot a.tail vt r0.length)) r0.length
        = some (List.zipWith (fun s t => s - t) x (vecMatDot a.tail vt r0.length)) := by
      unfold setRow
      rw [if_pos hslen]
    have hbguard : b.length = vt.length + 1 := by omega
    simp only [iirStep, hguard, if_true, hsub, hset, hbguard]
    simp only [specStep, List.tail_cons, hr0, specShift_eq_npShift, hx]

/-- Rows of the state produced by a spec step keep the stream width. -/
lemma specStep_rows (b a : List ℚ) (w : ℕ) (v : FilterState) (x : Sample)
    (hrows : ∀ r ∈ v, r.length = w) (hx : x.length = w) :
    ∀ r ∈ (specStep b a w v x).2, r.length = w := by
  intro r hr
  simp only [specStep, specShift_eq_npShift] at hr
  have hr2 := mem_npShift _ _ hr
  rcases List.mem_cons.mp hr2 with h | h
  · rw [h, List.length_zipWith, length_vecMatDot, hx]
    simp
  · exact hrows r (List.mem_of_mem_tail h)

/-- A spec step keeps the number of state rows, for a nonempty state. -/
lemma specStep_state_length (b a : List ℚ) (w : ℕ) (v : FilterState) (x : Sample)
    (hv : v ≠ []) : ((specStep b a w v x).2).length = v.length := by
  simp only [specStep, specShift_eq_npShift, length_npShift]
  cases v with
  | nil => exact absurd rfl hv
  | cons r t => simp

/-- The spec recursion produces one output per input. -/
lemma length_iirSpecRun (b a : List ℚ) (w : ℕ) :
    ∀ (xs : List Sample) (v : FilterState), (iirSpecRun b a w v xs).length = xs.length := by
  intro xs
  induction xs with
  | nil => intro v; rfl
  | cons x rest ih => intro v; simp [iirSpecRun, ih]

/-- Every output of the spec recursion has the stream width. -/
lemma mem_iirSpecRun_length (b a : List ℚ) (w : ℕ) :
    ∀ (xs : List Sample) (v : FilterState) (y : Sample),
      y ∈ iirSpecRun b a w v xs → y.length = w := by
  intro xs
  induction xs with
  | nil => intro v y hy; simp [iirSpecRun] at hy
  | cons x rest ih =>
    intro v y hy
    simp only [iirSpecRun, List.mem_cons] at hy
    rcases hy with hy | hy
    · rw [hy, specStep]
      exact length_vecMatDot _ _ _
    · exact ih _ _ hy

/-- Over a constant-width stream the source loop computes exactly the spec
recursion and never raises. -/
lemma iirRun_eq_specRun (b a : List ℚ) (w : ℕ)
    (ha : a.length = b.length) (hb : 1 ≤ b.length) :
    ∀ (xs : List Sample) (v : FilterState), v.length = b.length →
      (∀ r ∈ v, r.length = w) → (∀ x ∈ xs, x.length = w) →
      iirRun b a v xs = (iirSpecRun b a w v xs, true) := by
  intro xs
  induction xs with
  | nil => intro v _ _ _; rfl
  | cons x rest ih =>
    intro v hv hrows hxs
    have hx : x.length = w := hxs x (by simp)
    have hstep := iirStep_eq_specStep b a w v x ha hb hv hrows hx
    have hne : v ≠ [] := by
      intro h
      rw [h] at hv
      simp at hv
      omega
    have ih2 := ih (specStep b a w v x).2
      (by rw [specStep_state_length b a w v x hne, hv])
      (specStep_rows b a w v x hrows hx)
      (fun z hz => hxs z (by simp [hz]))
    simp [iirRun, hstep, iirSpecRun, ih2]

lemma getD_replicate_zero : ∀ (n j : ℕ), (List.replicate n (0 : ℚ)).getD j 0 = 0 := by
  intro n
  induction n with
  | zero => intro j; simp
  | succ m ih =>
    intro j
    cases j with
    | zero => simp [List.replicate_succ]
    | succ i => simp [List.replicate_succ, ih i]

lemma dotCol_zeroState (w j : ℕ) :
    ∀ (c : List ℚ) (m : ℕ),
      dotCol c (List.replicate m (List.replicate w 0)) j = 0 := by
  intro c
  induction c with
  | nil => intro m; cases m <;> simp [dotCol, List.replicate_succ]
  | cons c0 cs ih =>
    intro m
    cases m with
    | zero => simp [dotCol]
    | succ k =>
      rw [List.replicate_succ]
      show c0 * (List.replicate w (0 : ℚ)).getD j 0
          + dotCol cs (List.replicate k (List.replicate w 0)) j = 0
      rw [getD_replicate_zero, ih k]
      ring

lemma vecMatDot_zeroState (c : List ℚ) (m w : ℕ) :
    vecMatDot c (List.replicate m (List.replicate w 0)) w = List.replicate w 0 := by
  unfold vecMatDot
  have h : (dotCol c (List.replicate m (List.replicate w 0)))
      = fun j => (0 : ℚ) := by
    funext j
    exact dotCol_zeroState w j c m
  rw [h]
  simp [List.map_const']

lemma zipWith_sub_zero (w : ℕ) :
    List.zipWith (fun s t => s - t) (List.replicate w (0 : ℚ)) (List.replicate w 0)
      = List.replicate w 0 := by
  induction w with
  | zero => rfl
  | succ m ih => simp only [List.replicate_succ, List.zipWith_cons_cons, ih, sub_zero]

/-- On the all-zero sample the filter step emits the all-zero sample and
leaves the all-zero state unchanged. -/
lemma iirStep_zero (b a : List ℚ) (w : ℕ)
    (ha : a.length = b.length) (hb : 1 ≤ b.length) :
    iirStep b a (List.replicate b.length (List.replicate w 0)) (List.replicate w 0)
      = some (List.replicate w 0, List.replicate b.length (List.replicate w 0)) := by
  obtain ⟨m, hm⟩ : ∃ m, b.length = m + 1 := ⟨b.length - 1, by omega⟩
  have hguard : a.tail.length = (List.replicate m (List.replicate w (0 : ℚ))).length := by
    simp [List.length_tail, ha, hm]
  have hsub : npSub (List.replicate w (0 : ℚ)) (List.replicate w 0)
      = some (List.replicate w 0) := by
    unfold npSub
    rw [if_pos rfl, zipWith_sub_zero]
  have hset : setRow (List.replicate w (0 : ℚ)) w = some (List.replicate w 0) := by
    unfold setRow
    rw [if_pos (by simp)]
  have hshift : npShift (List.replicate (m + 1) (List.replicate w (0 : ℚ)))
      = List.replicate (m + 1) (List.replicate w 0) := by
    rw [List.replicate_succ]
    show (List.replicate w (0 : ℚ)) ::
        ((List.replicate w (0 : ℚ)) :: List.replicate m (List.replicate w 0)).dropLast
      = _
    rw [← List.replicate_succ, List.dropLast_eq_take, List.take_replicate,
      List.length_replicate]
    simp [List.replicate_succ]
  rw [hm, List.replicate_succ]
  simp only [iirStep]
  rw [if_pos hguard, List.length_replicate, vecMatDot_zeroState, hsub]
  dsimp only
  rw [hset]
  dsimp only
  rw [if_pos (by simp [hm]), ← List.replicate_succ,
    vecMatDot_zeroState, hshift]

/-- The loop keeps emitting all-zero samples from the all-zero state. -/
lemma iirRun_zero (b a : List ℚ) (w : ℕ)
    (ha : a.length = b.length) (hb : 1 ≤ b.length) :
    ∀ N, iirRun b a (List.replicate b.length (List.replicate w 0))
        (List.replicate N (List.replicate w 0))
      = (List.replicate N (List.replicate w 0), true) := by
  intro N
  induction N with
  | zero => rfl
  | succ n ih =>
    rw [List.replicate_succ]
    simp only [iirRun, iirStep_zero b a w ha hb, ih]

/-- A width-1 sample against a buffer of width `w ≠ 1` is broadcast by the
subtraction of line 152 and the step succeeds, emitting a width-`w` output. -/
lemma iirStep_width_one (b a : List ℚ) (w : ℕ) (v : FilterState) (x : Sample)
    (ha : a.length = b.length) (hb : 1 ≤ b.length) (hv : v.length = b.length)
    (hrows : ∀ r ∈ v, r.length = w) (hx : x.length = 1) (hw : w ≠ 1) :
    ∃ y v2, iirStep b a v x = some (y, v2) ∧ y.length = w ∧ v2.length = v.length ∧
      ∀ r ∈ v2, r.length = w := by
  cases v with
  | nil =>
    exfalso
    simp at hv
    omega
  | cons r0 vt =>
    have hr0 : r0.length = w := hrows r0 (by simp)
    have hguard : a.tail.length = vt.length := by
      have : vt.length = b.length - 1 := by
        simpa using congrArg (fun n => n - 1) hv
      simp [List.length_tail, this, ha]
    have hfblen : (vecMatDot a.tail vt r0.length).length = w := by
      rw [length_vecMatDot, hr0]
    have hsub : npSub x (vecMatDot a.tail vt r0.length)
        = some ((vecMatDot a.tail vt r0.length).map (fun t => x.headD 0 - t)) := by
      unfold npSub
      rw [if_neg (by rw [hx, hfblen]; exact fun h => hw h.symm), if_pos hx]
    have hmaplen : ((vecMatDot a.tail vt r0.length).map
        (fun t => x.headD 0 - t)).length = r0.length := by
      rw [List.length_map, length_vecMatDot]
    have hset : setRow ((vecMatDot a.tail vt r0.length).map
        (fun t => x.headD 0 - t)) r0.length
        = some ((vecMatDot a.tail vt r0.length).map (fun t => x.headD 0 - t)) := by
      unfold setRow
      rw [if_pos hmaplen]
    have hbguard : b.length = vt.length + 1 := by
      have : vt.length = b.length - 1 := by
        simpa using congrArg (fun n => n - 1) hv
      omega
    refine ⟨vecMatDot b (((vecMatDot a.tail vt r0.length).map
        (fun t => x.headD 0 - t)) :: vt) r0.length,
      npShift (((vecMatDot a.tail vt r0.length).map
        (fun t => x.headD 0 - t)) :: vt), ?_, ?_, ?_, ?_⟩
    · simp only [iirStep, hguard, if_true, hsub, hset]
      rw [if_pos hbguard]
    · rw [length_vecMatDot, hr0]
    · rw [length_npShift]
      simp only [List.length_cons]
    · intro r hr
      have hr2 := mem_npShift _ _ hr
      rcases List.mem_cons.mp hr2 with h | h
      · rw [h, List.length_map, length_vecMatDot, hr0]
      · exact hrows r (by simp [h])

/-- Any sample whose width is the buffer width or 1 is accepted by the step,
which emits a width-`w` output and keeps the buffer shape. -/
lemma iirStep_ok_of_width (b a : List ℚ) (w : ℕ) (v : FilterState) (x : Sample)
    (ha : a.length = b.length) (hb : 1 ≤ b.length) (hv : v.length = b.length)
    (hrows : ∀ r ∈ v, r.length = w) (hx : x.length = w ∨ x.length = 1) :
    ∃ y v2, iirStep b a v x = some (y, v2) ∧ y.length = w ∧ v2.length = v.length ∧
      ∀ r ∈ v2, r.length = w := by
  by_cases hxw : x.length = w
  · have hne : v ≠ [] := by
      intro h
      rw [h] at hv
      simp at hv
      omega
    refine ⟨(specStep b a w v x).1, (specStep b a w v x).2,
      ?_, ?_, specStep_state_length b a w v x hne, specStep_rows b a w v x hrows hxw⟩
    · rw [iirStep_eq_specStep b a w v x ha hb hv hrows hxw]
    · simp only [specStep]
      exact length_vecMatDot _ _ _
  · have hx1 : x.length = 1 := by tauto
    have hw : w ≠ 1 := fun h => hxw (by rw [hx1, h])
    exact iirStep_width_one b a w v x ha hb hv hrows hx1 hw

/-- Over a stream whose samples all have the buffer width or width 1, the
loop never raises, emits one width-`w` output per input, and ends cleanly. -/
lemma iirRun_ok_of_width (b a : List ℚ) (w : ℕ)
    (ha : a.length = b.length) (hb : 1 ≤ b.length) :
    ∀ (xs : List Sample) (v : FilterState), v.length = b.length →
      (∀ r ∈ v, r.length = w) → (∀ x ∈ xs, x.length = w ∨ x.length = 1) →
      (iirRun b a v xs).2 = true ∧ (iirRun b a v xs).1.length = xs.length ∧
        ∀ y ∈ (iirRun b a v xs).1, y.length = w := by
  intro xs
  induction xs with
  | nil =>
    intro v _ _ _
    exact ⟨rfl, rfl, by intro y hy; simp [iirRun] at hy⟩
  | cons x rest ih =>
    intro v hv hrows hxs
    obtain ⟨y, v2, hstep, hy, hv2, hrows2⟩ :=
      iirStep_ok_of_width b a w v x ha hb hv hrows (hxs x (by simp))
    have ih2 := ih v2 (by rw [hv2, hv]) hrows2 (fun z hz => hxs z (by simp [hz]))
    refine ⟨?_, ?_, ?_⟩
    · simp only [iirRun, hstep]
      exact ih2.1
    · simp only [iirRun, hstep, List.length_cons]
      rw [ih2.2.1]
    · intro z hz
      simp only [iirRun, hstep, List.mem_cons] at hz
      rcases hz with hz | hz
      · rw [hz]; exact hy
      · exact ih2.2.2 z hz

/-- A sample whose width is neither the buffer width nor 1 makes the step
raise: either the subtraction of line 152 fails to broadcast, or (when the
buffer has width 1) the assignment into row 0 fails. -/
lemma iirStep_fail_of_width (b a : List ℚ) (w : ℕ) (v : FilterState) (x : Sample)
    (hne : v ≠ []) (hrows : ∀ r ∈ v, r.length = w)
    (h1 : x.length ≠ w) (h2 : x.length ≠ 1) :
    iirStep b a v x = none := by
  cases v with
  | nil => exact absurd rfl hne
  | cons r0 vt =>
    have hr0 : r0.length = w := hrows r0 (by simp)
    by_cases hguard : a.tail.length = vt.length
    · have hfblen : (vecMatDot a.tail vt r0.length).length = w := by
        rw [length_vecMatDot, hr0]
      by_cases hw1 : w = 1
      · have hsub : npSub x (vecMatDot a.tail vt r0.length)
            = some (x.map (fun s => s - (vecMatDot a.tail vt r0.length).headD 0)) := by
          unfold npSub
          rw [if_neg (by rw [hfblen]; exact h1), if_neg h2, if_pos (by rw [hfblen, hw1])]
        have hset : setRow (x.map (fun s =>
            s - (vecMatDot a.tail vt r0.length).headD 0)) r0.length = none := by
          unfold setRow
          rw [if_neg (by rw [List.length_map, hr0]; exact h1),
            if_neg (by rw [List.length_map]; exact h2)]
        simp only [iirStep, hguard, if_true, hsub, hset]
      · have hsub : npSub x (vecMatDot a.tail vt r0.length) = none := by
          unfold npSub
          rw [if_neg (by rw [hfblen]; exact h1), if_neg h2,
            if_neg (by rw [hfblen]; exact hw1)]
        simp only [iirStep, hguard, if_true, hsub]
    · simp only [iirStep, hguard]
      simp

/-- When each pulled pair of samples has equal width, every elementwise
division succeeds, so `ratioer` emits the pairwise quotients and ends
cleanly when the shorter stream ends. -/
lemma ratioer_eq_zipWith {α : Type} [Div α] :
    ∀ (num den : List (List α)),
      (∀ p ∈ List.zip num den, p.1.length = p.2.length) →
      ratioer num den
        = (List.zipWith (fun s t => List.zipWith (fun u v => u / v) s t) num den, true) := by
  intro num
  induction num with
  | nil =>
    intro den _
    cases den <;> rfl
  | cons s xs ih =>
    intro den hw
    cases den with
    | nil => rfl
    | cons t ys =>
      have hst : s.length = t.length := hw (s, t) (by simp [List.zip_cons_cons])
      have hdiv : npDiv s t = some (List.zipWith (fun u v => u / v) s t) := by
        unfold npDiv
        rw [if_pos hst]
      have ih2 := ih ys (fun p hp => hw p (by simp [List.zip_cons_cons, hp]))
      simp [ratioer, hdiv, ih2]

/-! ### Claim theorems -/

/-- C1: for every input stream of common width `w` and every coefficient
pair `b`, `a` of equal length `k ≥ 1`, `iir_filter` computes each output by
the direct-form recursion of §4.2 on a `k`-row state matrix that starts all
zero — `v[0] = x − Σ_{i=1..k-1} a[i]·v[i]` from the rows left by the
previous pull, `y = Σ_{i=0..k-1} b[i]·v[i]` before any shifting, then the
non-cascading downward shift `v[i] = v[i-1]` — and emits each `y` as a
sample of width `w`. -/
theorem iir_filter_direct_form (b a : List ℚ) (w : ℕ) (xs : List Sample)
    (ha : a.length = b.length) (hb : 1 ≤ b.length)
    (hxs : ∀ x ∈ xs, x.length = w) :
    iir_filter b a xs = (iirSpec b a w xs, true) ∧
      ∀ y ∈ (iir_filter b a xs).1, y.length = w := by
  cases xs with
  | nil =>
    refine ⟨rfl, ?_⟩
    intro y hy
    simp [iir_filter] at hy
  | cons x0 rest =>
    have hx0 : x0.length = w := hxs x0 (by simp)
    have hinit_len : (initState b x0).length = b.length := by simp [initState]
    have hinit_rows : ∀ r ∈ initState b x0, r.length = w := by
      intro r hr
      rw [List.eq_of_mem_replicate hr, List.length_replicate, hx0]
    have heq : iir_filter b a (x0 :: rest)
        = (iirSpecRun b a w (initState b x0) (x0 :: rest), true) := by
      show iirRun b a (initState b x0) (x0 :: rest) = _
      exact iirRun_eq_specRun b a w ha hb (x0 :: rest) (initState b x0)
        hinit_len hinit_rows hxs
    have hinit : initState b x0 = List.replicate b.length (List.replicate w 0) := by
      unfold initState
      rw [hx0]
    constructor
    · rw [heq]
      unfold iirSpec
      rw [← hinit]
    · rw [heq]
      intro y hy
      exact mem_iirSpecRun_length b a w (x0 :: rest) (initState b x0) y hy

theorem iir_filter_direct_form_witness :
    iir_filter [(1 : ℚ)/2, 1/4] [1, 1/3] [[1], [2]]
        = (iirSpec [(1 : ℚ)/2, 1/4] [1, 1/3] 1 [[1], [2]], true) ∧
      ∀ y ∈ (iir_filter [(1 : ℚ)/2, 1/4] [1, 1/3] [[1], [2]]).1, y.length = 1 :=
  iir_filter_direct_form [(1 : ℚ)/2, 1/4] [1, 1/3] 1 [[1], [2]]
    (by decide) (by decide) (by decide)

/-- C2: over a finite input stream of length N (of common width, with a
genuine coefficient pair), `iir_filter` emits exactly N outputs and ends
cleanly with no startup skip or drop; `abser` emits exactly N outputs; and
`ratioer`, over two valid streams of a common width, emits exactly N
outputs with no error when its numerator stream has length N and its
denominator stream has length at least N. -/
theorem stream_cardinality (b a : List ℚ) (w w2 : ℕ) (xs ys : List Sample)
    (num den : List (List EFloat))
    (ha : a.length = b.length) (hb : 1 ≤ b.length)
    (hxs : ∀ x ∈ xs, x.length = w) (hnd : num.length ≤ den.length)
    (hnum : ∀ s ∈ num, s.length = w2) (hden : ∀ s ∈ den, s.length = w2) :
    (iir_filter b a xs).1.length = xs.length ∧ (iir_filter b a xs).2 = true ∧
      (abser ys).length = ys.length ∧
      (ratioer num den).1.length = num.length ∧ (ratioer num den).2 = true := by
  have hiir : (iir_filter b a xs).1.length = xs.length ∧ (iir_filter b a xs).2 = true := by
    cases xs with
    | nil => exact ⟨rfl, rfl⟩
    | cons x0 rest =>
      have hx0 : x0.length = w := hxs x0 (by simp)
      have hinit_len : (initState b x0).length = b.length := by simp [initState]
      have hinit_rows : ∀ r ∈ initState b x0, r.length = w := by
        intro r hr
        rw [List.eq_of_mem_replicate hr, List.length_replicate, hx0]
      have h := iirRun_ok_of_width b a w ha hb (x0 :: rest) (initState b x0)
        hinit_len hinit_rows (fun x hx => Or.inl (hxs x hx))
      exact ⟨h.2.1, h.1⟩
  have hpair : ∀ p ∈ List.zip num den, p.1.length = p.2.length := by
    rintro ⟨u, v⟩ hp
    obtain ⟨h1, h2⟩ := List.of_mem_zip hp
    rw [hnum u h1, hden v h2]
  have hr := ratioer_eq_zipWith num den hpair
  refine ⟨hiir.1, hiir.2, ?_, ?_, ?_⟩
  · simp [abser]
  · rw [hr]
    simp only [List.length_zipWith]
    omega
  · rw [hr]

theorem stream_cardinality_witness :
    (iir_filter [(1 : ℚ)] [1] [[2], [3]]).1.length = 2 ∧
      (iir_filter [(1 : ℚ)] [1] [[2], [3]]).2 = true ∧
      (abser [[(5 : ℚ), 6]]).length = 1 ∧
      (ratioer [[EFloat.fin 1]] [[EFloat.fin 2], [EFloat.fin 0]]).1.length = 1 ∧
      (ratioer [[EFloat.fin 1]] [[EFloat.fin 2], [EFloat.fin 0]]).2 = true :=
  stream_cardinality [(1 : ℚ)] [1] 1 1 [[2], [3]] [[(5 : ℚ), 6]]
    [[EFloat.fin 1]] [[EFloat.fin 2], [EFloat.fin 0]]
    (by decide) (by decide) (by decide) (by decide) (by decide) (by decide)

/-- C3: feeding N all-zero samples of width `w ≥ 1` through `iir_filter`
yields exactly N all-zero outputs of width `w`, ending cleanly; and the
state matrix is left all-zero by every step (the step on the all-zero state
and all-zero input returns the all-zero state unchanged). -/
theorem iir_filter_zero_preservation (b a : List ℚ) (w N : ℕ)
    (ha : a.length = b.length) (hb : 1 ≤ b.length) (hw : 1 ≤ w) :
    iir_filter b a (List.replicate N (List.replicate w 0))
        = (List.replicate N (List.replicate w 0), true) ∧
      iirStep b a (List.replicate b.length (List.replicate w 0)) (List.replicate w 0)
        = some (List.replicate w 0, List.replicate b.length (List.replicate w 0)) := by
  constructor
  · cases N with
    | zero => rfl
    | succ n =>
      rw [List.replicate_succ]
      show iirRun b a (initState b (List.replicate w 0)) _ = _
      unfold initState
      rw [List.length_replicate, ← List.replicate_succ]
      exact iirRun_zero b a w ha hb (n + 1)
  · exact iirStep_zero b a w ha hb

theorem iir_filter_zero_preservation_witness :
    iir_filter [(1 : ℚ), 1/2] [1, 1/3] (List.replicate 3 (List.replicate 2 0))
        = (List.replicate 3 (List.replicate 2 0), true) ∧
      iirStep [(1 : ℚ), 1/2] [1, 1/3]
          (List.replicate 2 (List.replicate 2 0)) (List.replicate 2 0)
        = some (List.replicate 2 0, List.replicate 2 (List.replicate 2 0)) :=
  iir_filter_zero_preservation [(1 : ℚ), 1/2] [1, 1/3] 2 3
    (by decide) (by decide) (by decide)

/-- C4 counterexample: a width-2 stream whose second sample has width 1 does
NOT make `iir_filter` fail on the second pull — the width-1 sample is
broadcast and a second output is emitted, so the claim that any width
change raises `ChannelWidthMismatch` is false at this input. -/
theorem iir_filter_width_one_accepted_cex :
    iir_filter [(1 : ℚ), 0] [1, 0] [[1, 2], [5]] = ([[1, 2], [5, 5]], true) := by
  norm_num [iir_filter, iirRun, iirStep, initState, npSub, setRow, npShift,
    vecMatDot, dotCol, List.range_succ, List.replicate_succ, List.getD]

/-- C4 amended: if the first sample has width `w` and the second sample's
width is neither `w` nor 1, `iir_filter` fails (ChannelWidthMismatch) on
the second pull, not the first, and emits no output for the mismatched
sample; a width-1 second sample is instead broadcast (see the width-1
claim). -/
theorem iir_filter_width_mismatch (b a : List ℚ) (w : ℕ) (x0 x1 : Sample)
    (ha : a.length = b.length) (hb : 1 ≤ b.length)
    (h0 : x0.length = w) (h1 : x1.length ≠ w) (h2 : x1.length ≠ 1) :
    (iir_filter b a [x0, x1]).2 = false ∧ (iir_filter b a [x0, x1]).1.length = 1 := by
  have hinit_len : (initState b x0).length = b.length := by simp [initState]
  have hinit_rows : ∀ r ∈ initState b x0, r.length = w := by
    intro r hr
    rw [List.eq_of_mem_replicate hr, List.length_replicate, h0]
  obtain ⟨y, v2, hstep, hy, hv2, hrows2⟩ :=
    iirStep_ok_of_width b a w (initState b x0) x0 ha hb hinit_len hinit_rows (Or.inl h0)
  have hv2ne : v2 ≠ [] := by
    intro h
    rw [h] at hv2
    simp [initState] at hv2
    omega
  have hfail := iirStep_fail_of_width b a w v2 x1 hv2ne hrows2 h1 h2
  show (iirRun b a (initState b x0) [x0, x1]).2 = false ∧
    (iirRun b a (initState b x0) [x0, x1]).1.length = 1
  simp [iirRun, hstep, hfail]

theorem iir_filter_width_mismatch_witness :
    (iir_filter [(1 : ℚ), 0] [1, 0] [[1, 2], [3, 4, 5]]).2 = false ∧
      (iir_filter [(1 : ℚ), 0] [1, 0] [[1, 2], [3, 4, 5]]).1.length = 1 :=
  iir_filter_width_mismatch [(1 : ℚ), 0] [1, 0] 2 [1, 2] [3, 4, 5]
    (by decide) (by decide) (by decide) (by decide) (by decide)

/-- C10: when the first sample fixes a width `w > 1` and later samples have
width 1 (or `w`), `iir_filter` raises no error: each width-1 sample is
broadcast across the `w` columns of the state matrix and the filter keeps
emitting width-`w` outputs, one per input. -/
theorem iir_filter_width_one_broadcast (b a : List ℚ) (w : ℕ) (x0 : Sample)
    (rest : List Sample) (ha : a.length = b.length) (hb : 1 ≤ b.length)
    (hw : 1 < w) (h0 : x0.length = w)
    (hrest : ∀ x ∈ rest, x.length = w ∨ x.length = 1) :
    (iir_filter b a (x0 :: rest)).2 = true ∧
      (iir_filter b a (x0 :: rest)).1.length = rest.length + 1 ∧
      ∀ y ∈ (iir_filter b a (x0 :: rest)).1, y.length = w := by
  have hinit_len : (initState b x0).length = b.length := by simp [initState]
  have hinit_rows : ∀ r ∈ initState b x0, r.length = w := by
    intro r hr
    rw [List.eq_of_mem_replicate hr, List.length_replicate, h0]
  have h := iirRun_ok_of_width b a w ha hb (x0 :: rest) (initState b x0)
    hinit_len hinit_rows ?_
  · exact ⟨h.1, by simpa using h.2.1, h.2.2⟩
  · intro x hx
    rcases List.mem_cons.mp hx with h | h
    · exact Or.inl (by rw [h, h0])
    · exact hrest x h

theorem iir_filter_width_one_broadcast_witness :
    (iir_filter [(1 : ℚ), 0] [1, 0] [[1, 2], [3]]).2 = true ∧
      (iir_filter [(1 : ℚ), 0] [1, 0] [[1, 2], [3]]).1.length = 2 ∧
      ∀ y ∈ (iir_filter [(1 : ℚ), 0] [1, 0] [[1, 2], [3]]).1, y.length = 2 := by
  have h := iir_filter_width_one_broadcast [(1 : ℚ), 0] [1, 0] 2 [1, 2] [[3]]
    (by decide) (by decide) (by decide) (by decide) (by decide)
  exact ⟨h.1, by simpa using h.2.1, h.2.2⟩

/-- C5: coefficient design fails with `InvalidCutoff` exactly when some
cutoff frequency divided by the Nyquist frequency is ≥ 1 or ≤ 0 (for
example cutoff 70 Hz against Nyquist 64 Hz), and returns coefficients only
when every normalized cutoff lies strictly inside (0,1) — an in-range
design may still fail, with `IllConditionedFilter`, when scipy's numerics
flag it as ill-conditioned. -/
theorem iir_filter_coefs_invalid_cutoff (illCond : Bool) (cutoff : List ℚ) (nyq : ℚ) :
    (iir_filter_coefs illCond cutoff nyq = Except.error CoefError.invalidCutoff
        ↔ ∃ f ∈ cutoff, 1 ≤ f / nyq ∨ f / nyq ≤ 0)
      ∧ (iir_filter_coefs illCond cutoff nyq = Except.ok ()
        → ∀ f ∈ cutoff, 0 < f / nyq ∧ f / nyq < 1)
      ∧ iir_filter_coefs illCond [70] 64 = Except.error CoefError.invalidCutoff := by
  have hall : (cutoff.all (fun f => decide (0 < f / nyq) && decide (f / nyq < 1)) = true)
      ↔ ∀ f ∈ cutoff, 0 < f / nyq ∧ f / nyq < 1 := by
    simp [List.all_eq_true]
  refine ⟨?_, ?_, ?_⟩
  · unfold iir_filter_coefs
    by_cases h : ∀ f ∈ cutoff, 0 < f / nyq ∧ f / nyq < 1
    · rw [if_pos (hall.mpr h)]
      constructor
      · intro he
        exfalso
        cases illCond <;> simp at he
      · rintro ⟨f, hf, hc⟩
        exfalso
        obtain ⟨hl, hr⟩ := h f hf
        rcases hc with hc | hc
        · linarith
        · linarith
    · rw [if_neg (fun hc => h (hall.mp hc))]
      simp only [true_iff]
      push_neg at h
      obtain ⟨f, hf, hc⟩ := h
      refine ⟨f, hf, ?_⟩
      by_cases h0 : 0 < f / nyq
      · exact Or.inl (hc h0)
      · exact Or.inr (le_of_not_lt h0)
  · unfold iir_filter_coefs
    by_cases h : ∀ f ∈ cutoff, 0 < f / nyq ∧ f / nyq < 1
    · intro _
      exact h
    · rw [if_neg (fun hc => h (hall.mp hc))]
      intro he
      simp at he
  · norm_num [iir_filter_coefs]

/-- C6 counterexample: at the post-lowpass value y = 6.19 the code's
intensity `int(max(0, min(127, 10*y-60)))` is 1 (truncation of 1.9), while
the claimed formula `clip(round(10*y-60), 0, 127)` gives 2, so the claim's
rounding formula does not match the code. -/
theorem alpha_value_round_cex :
    alphaValue (619 / 100) = 1 ∧ specIntensity (619 / 100) = 2 ∧
      alphaValue (619 / 100) ≠ specIntensity (619 / 100) := by
  have h1 : alphaValue (619 / 100) = 1 := by
    have hz : 10 * ((619 : ℚ) / 100) - 60 = 19 / 10 := by norm_num
    unfold alphaValue pyInt
    rw [hz, min_eq_right (by norm_num), max_eq_right (by norm_num),
      if_pos (by norm_num)]
    norm_num [Int.floor_eq_iff]
  have h2 : specIntensity (619 / 100) = 2 := by
    have hz : 10 * ((619 : ℚ) / 100) - 60 = 19 / 10 := by norm_num
    unfold specIntensity
    rw [hz, round_eq]
    norm_num [Int.floor_eq_iff]
  exact ⟨h1, h2, by rw [h1, h2]; decide⟩

/-- C6 amended: the intensity computed by `alpha_stars` equals
`clip(trunc(10*y − 60), 0, 127)` — truncation, which after the clip to a
nonnegative range is the floor, not rounding; the four example points of
the claim are unchanged: y = 6.0 gives 0, y = 18.7 gives 127, y = 25.0
clips to 127 and y = 5.9 clips to 0. -/
theorem alpha_value_scale_clip :
    (∀ y : ℚ, alphaValue y = max 0 (min 127 ⌊10 * y - 60⌋)) ∧
      alphaValue 6 = 0 ∧ alphaValue (187 / 10) = 127 ∧
      alphaValue 25 = 127 ∧ alphaValue (59 / 10) = 0 := by
  have hgen : ∀ y : ℚ, alphaValue y = max 0 (min 127 ⌊10 * y - 60⌋) := by
    intro y
    unfold alphaValue pyInt
    rw [if_pos (le_max_left _ _)]
    rcases le_total (10 * y - 60) 0 with h | h
    · have hfl : ⌊10 * y - 60⌋ ≤ 0 := by
        have h2 := Int.floor_le_floor h
        simpa using h2
      rw [min_eq_right (le_trans h (by norm_num)), max_eq_left h,
        min_eq_right (le_trans hfl (by norm_num)), max_eq_left hfl]
      norm_num
    · rcases le_total (10 * y - 60) 127 with h2 | h2
      · have h0 : (0 : ℤ) ≤ ⌊10 * y - 60⌋ := Int.floor_nonneg.mpr h
        have h127 : ⌊10 * y - 60⌋ ≤ 127 := by
          have h3 := Int.floor_le_floor h2
          simpa using h3
        rw [min_eq_right h2, max_eq_right h, min_eq_right h127, max_eq_right h0]
      · have h127 : (127 : ℤ) ≤ ⌊10 * y - 60⌋ := by
          rw [Int.le_floor]
          exact_mod_cast h2
        rw [min_eq_left h2, max_eq_right (by norm_num : (0 : ℚ) ≤ 127),
          min_eq_left h127, max_eq_right (by omega : (0 : ℤ) ≤ 127)]
        norm_num
  refine ⟨hgen, ?_, ?_, ?_, ?_⟩
  · rw [hgen]
    norm_num
  · rw [hgen]
    have hz : 10 * ((187 : ℚ) / 10) - 60 = 127 := by norm_num
    rw [hz]
    norm_num
  · rw [hgen]
    have hz : 10 * (25 : ℚ) - 60 = 190 := by norm_num
    rw [hz]
    norm_num
  · rw [hgen]
    have hz : 10 * ((59 : ℚ) / 10) - 60 = -1 := by norm_num
    rw [hz]
    norm_num

/-- C7: when every pull's two samples have equal width, `ratioer` never
raises — each pull emits the elementwise floating-point quotient of the
numerator and denominator samples, with division by a zero element
following IEEE semantics (signed infinity or nan) rather than raising; in
particular numerator [4.0, 4.0] against denominator [0.0, 2.0] yields
[+infinity, 2.0] with no exception. -/
theorem ratioer_float_division (num den : List (List EFloat))
    (hw : ∀ p ∈ List.zip num den, p.1.length = p.2.length) :
    (ratioer num den).2 = true ∧
      (ratioer num den).1
        = List.zipWith (fun s t => List.zipWith (fun u v => u / v) s t) num den ∧
      ratioer [[EFloat.fin 4, EFloat.fin 4]] [[EFloat.fin 0, EFloat.fin 2]]
        = ([[EFloat.posInf, EFloat.fin 2]], true) := by
  have hr := ratioer_eq_zipWith num den hw
  refine ⟨by rw [hr], by rw [hr], ?_⟩
  norm_num [ratioer, npDiv, EFloat.div_eq, EFloat.div]

theorem ratioer_float_division_witness :
    (ratioer [[EFloat.fin 4, EFloat.fin 4]] [[EFloat.fin 0, EFloat.fin 2]]).2 = true ∧
      (ratioer [[EFloat.fin 4, EFloat.fin 4]] [[EFloat.fin 0, EFloat.fin 2]]).1
        = List.zipWith (fun s t => List.zipWith (fun u v => u / v) s t)
            [[EFloat.fin 4, EFloat.fin 4]] [[EFloat.fin 0, EFloat.fin 2]] ∧
      ratioer [[EFloat.fin 4, EFloat.fin 4]] [[EFloat.fin 0, EFloat.fin 2]]
        = ([[EFloat.posInf, EFloat.fin 2]], true) :=
  ratioer_float_division [[EFloat.fin 4, EFloat.fin 4]] [[EFloat.fin 0, EFloat.fin 2]]
    (by decide)

/-- C8: the code violates the claim that `headset.close()` runs exactly
once on every termination path — on a `KeyboardInterrupt` during the
filtering loop the handler at line 239 and the `finally` at line 241 each
call close, so close runs twice (on the other exits it runs once). -/
theorem alpha_stars_close_twice_on_interrupt :
    alphaStarsCloseCalls BodyExit.keyboardInterrupt = 2 ∧
      alphaStarsCloseCalls BodyExit.finished = 1 ∧
      alphaStarsCloseCalls BodyExit.otherError = 1 :=
  ⟨rfl, rfl, rfl⟩

/-- C9: the code violates the claim that a failed device open is reported
to the caller and execution does not continue — the bare `except:` at line
217 swallows the open failure and execution continues into the setup block
(`spawnSetup` is reached), after which the caller receives an
`UnboundLocalError` about the unbound `headset` name rather than the open
failure itself; the pipeline construction and the filtering loop are not
reached only because of that incidental crash. -/
theorem alpha_stars_open_failure_continues :
    Phase.spawnSetup ∈ alphaStarsPhases true ∧
      Phase.buildPipeline ∉ alphaStarsPhases true ∧
      Phase.filterLoop ∉ alphaStarsPhases true ∧
      alphaStarsOutcome true = Outcome.unboundLocalError ∧
      alphaStarsOutcome true ≠ Outcome.openFailureReported := by
  decide

end Emokitten
